import Mathlib

/-!
Verification of the glob-pattern compiler and prefilter of
`graphite_datadog/glob_utils.py`.

The Python module is shallowly embedded below:

* `TokenType`, `tokenize`   — the tokenizer (a generator in the source; here a
  function returning the emitted token list, or the raised message);
* `reEscape`                — model of Python `re.escape` (the character map
  used by CPython 3.7+: exactly the characters that can be special in a
  regular expression are prefixed with a backslash);
* `glob_to_regex`           — the token-to-regex-string compiler;
* `Regex`, `rmatch`, `parseRegex`, `reFullMatch` — a model of the fragment of
  Python `re` syntax that `glob_to_regex` emits, with a Brzozowski-derivative
  matcher (the unanchored-newline subtlety of `.` is not modelled: `.` is
  taken to match any character, which is exact for the dot-separated metric
  names this module works on);
* `is_graphite_glob`, `is_valid_glob`, `globScanAux`, `maybe_matched_prefilter`,
  `glob`                    — the validator and the prefilter.

Python `str.split` with a one-character separator is modelled by `pySplit`.
-/

namespace GlobUtils

/-- Model of Python `str.split(sep)` for a one-character separator, working on
the character list: splits at every occurrence of `sep`; the empty string
yields `[[]]`, i.e. one empty field, exactly as in Python. -/
def splitChars (sep : Char) : List Char → List (List Char)
  | [] => [[]]
  | c :: rest =>
    let r := splitChars sep rest
    if c = sep then [] :: r
    else
      match r with
      | h :: t => (c :: h) :: t
      | [] => [[c]]

/-- Python `s.split(sep)` for a one-character separator `sep`. -/
def pySplit (s : String) (sep : Char) : List String :=
  (splitChars sep s.toList).map (fun cs => String.mk cs)

/-- The `TokenType` enum of the source module. -/
inductive TokenType where
  | PATH_SEPARATOR
  | LITERAL
  | WILD_CHAR
  | WILD_SEQUENCE
  | WILD_PATH
  | CHAR_SELECT_BEGIN
  | CHAR_SELECT_NEGATED_BEGIN
  | CHAR_SELECT_RANGE_DASH
  | CHAR_SELECT_END
  | EXPR_SELECT_BEGIN
  | EXPR_SELECT_SEPARATOR
  | EXPR_SELECT_END
  deriving DecidableEq, Repr

/-- `SPECIAL_CHARS = ".?*[-]{,}"` of the source, as a character test. -/
def isSpecialChar (c : Char) : Bool :=
  c ∈ ['.', '?', '*', '[', '-', ']', '{', ',', '}']

/-- A token as yielded by the source generator: a kind and a data payload.
The payload is `some txt` for `yield kind, txt`; the (dead) re-yield branch of
the literal accumulator does `yield token, None`, modelled as `none`. -/
abbrev Tok := TokenType × Option String

deriving instance DecidableEq for Except

/-- The tokens yielded at the end of the scan loop ("Do not forget trailing
token, if any"), and also the flush done just before a special character is
handled (`elif token: yield token, tmp`). -/
def flushToks (token : Option TokenType) (tmp : String) : List Tok :=
  match token with
  | some t => [(t, some tmp)]
  | none => []

/-- The literal buffer right after the pre-special flush: the source resets
`tmp` to `""` only when a pending token was flushed. -/
def tmpAfterFlush (token : Option TokenType) (tmp : String) : String :=
  match token with
  | some _ => ""
  | none => tmp

/-- The loop body of `tokenize`.  State: `ics` is `is_char_select`, `tmp` the
pending literal buffer, `token` the pending token kind (in the source `None`
or `TokenType.LITERAL`).  The `is_escaped` flag is folded into the `'\\' ::
c :: cs` pattern: the backslash sets the flag and the very next iteration
appends the escaped character to `tmp` without touching `token`; a lone
trailing backslash sets the flag and the loop then ends, flushing any
pending token.  The source tests `c not in SPECIAL_CHARS or (c == "-" and
not is_char_select)` to extend the literal run and otherwise dispatches on
the special character (with one-character look-ahead for `**` and `[!`);
here the dispatch is done by matching on the same characters, with the
literal-run extension in the `'-'`-outside-a-class case and in the final
catch-all case.  The source's `raise Exception("Unexpected character ...")`
is unreachable: every character is either `\`, one of the nine special
characters (each with its own case), or part of a literal run. -/
def tokenizeAux (ics : Bool) (tmp : String) (token : Option TokenType) :
    List Char → Except String (List Tok)
  | [] => .ok (flushToks token tmp)
  | ['\\'] => .ok (flushToks token tmp)
  | '\\' :: c :: cs => tokenizeAux ics (tmp.push c) token cs
  | '.' :: cs =>
    (tokenizeAux ics (tmpAfterFlush token tmp) none cs).map
      (fun ts => flushToks token tmp ++ (TokenType.PATH_SEPARATOR, some "") :: ts)
  | '?' :: cs =>
    (tokenizeAux ics (tmpAfterFlush token tmp) none cs).map
      (fun ts => flushToks token tmp ++ (TokenType.WILD_CHAR, some "") :: ts)
  | '*' :: '*' :: cs =>
    (tokenizeAux ics (tmpAfterFlush token tmp) none cs).map
      (fun ts => flushToks token tmp ++ (TokenType.WILD_PATH, some "") :: ts)
  | '*' :: cs =>
    (tokenizeAux ics (tmpAfterFlush token tmp) none cs).map
      (fun ts => flushToks token tmp ++ (TokenType.WILD_SEQUENCE, some "") :: ts)
  | '[' :: '!' :: cs =>
    (tokenizeAux true (tmpAfterFlush token tmp) none cs).map
      (fun ts =>
        flushToks token tmp ++ (TokenType.CHAR_SELECT_NEGATED_BEGIN, some "") :: ts)
  | '[' :: cs =>
    (tokenizeAux true (tmpAfterFlush token tmp) none cs).map
      (fun ts => flushToks token tmp ++ (TokenType.CHAR_SELECT_BEGIN, some "") :: ts)
  | ']' :: cs =>
    (tokenizeAux false (tmpAfterFlush token tmp) none cs).map
      (fun ts => flushToks token tmp ++ (TokenType.CHAR_SELECT_END, some "") :: ts)
  | '{' :: cs =>
    (tokenizeAux ics (tmpAfterFlush token tmp) none cs).map
      (fun ts => flushToks token tmp ++ (TokenType.EXPR_SELECT_BEGIN, some "") :: ts)
  | ',' :: cs =>
    (tokenizeAux ics (tmpAfterFlush token tmp) none cs).map
      (fun ts =>
        flushToks token tmp ++ (TokenType.EXPR_SELECT_SEPARATOR, some "") :: ts)
  | '}' :: cs =>
    (tokenizeAux ics (tmpAfterFlush token tmp) none cs).map
      (fun ts => flushToks token tmp ++ (TokenType.EXPR_SELECT_END, some "") :: ts)
  | '-' :: cs =>
    if ics then
      (tokenizeAux ics (tmpAfterFlush token tmp) none cs).map
        (fun ts =>
          flushToks token tmp ++ (TokenType.CHAR_SELECT_RANGE_DASH, some "") :: ts)
    else
      match token with
      | some t =>
        if t = TokenType.LITERAL then
          tokenizeAux ics (tmp.push '-') (some TokenType.LITERAL) cs
        else
          (tokenizeAux ics ("".push '-') (some TokenType.LITERAL) cs).map
            (fun ts => (t, none) :: ts)
      | none => tokenizeAux ics (tmp.push '-') (some TokenType.LITERAL) cs
  | c :: cs =>
    match token with
    | some t =>
      if t = TokenType.LITERAL then
        tokenizeAux ics (tmp.push c) (some TokenType.LITERAL) cs
      else
        -- dead in practice: `token` is only ever `None` or `LITERAL`
        (tokenizeAux ics ("".push c) (some TokenType.LITERAL) cs).map
          (fun ts => (t, none) :: ts)
    | none => tokenizeAux ics (tmp.push c) (some TokenType.LITERAL) cs

/-- `tokenize(glob)` of the source: scan from the initial state. -/
def tokenize (glob : String) : Except String (List Tok) :=
  tokenizeAux false "" none glob.toList

/-- The character set escaped by CPython `re.escape` (3.7+): exactly the
characters that can be special in a regular expression, plus whitespace. -/
def reSpecial (c : Char) : Bool :=
  c ∈ ['(', ')', '[', ']', '{', '}', '?', '*', '+', '-', '|', '^', '$',
       '\\', '.', '&', '~', '#', ' ', '\t', '\n', '\r', '\x0b', '\x0c']

/-- One character of `re.escape` output, as a character list. -/
def escCharL (c : Char) : List Char :=
  if reSpecial c then ['\\', c] else [c]

/-- One character of `re.escape` output. -/
def escChar (c : Char) : String := String.mk (escCharL c)

/-- The `re.escape` rendering of a character list, as a character list. -/
def escRenderL : List Char → List Char
  | [] => []
  | c :: cs => escCharL c ++ escRenderL cs

/-- The `re.escape` rendering of a character list. -/
def escRender : List Char → String
  | [] => ""
  | c :: cs => escChar c ++ escRender cs

/-- Model of Python `re.escape`: character-by-character escaping. -/
def reEscape (s : String) : String := escRender s.toList

/-- The per-token substitution of `glob_to_regex`.  The `LITERAL` arm with a
`None` payload is the Python `re.escape(None)` `TypeError`; the source's final
`raise Exception("Unexpected token type ...")` cannot arise here because
`TokenType` is a closed enumeration and every member is handled. -/
def compileToken (t : TokenType) (d : Option String) : Except String String :=
  match t with
  | .PATH_SEPARATOR => .ok (reEscape ".")
  | .LITERAL =>
    match d with
    | some s => .ok (reEscape s)
    | none => .error "TypeError: re.escape(None)"
  | .WILD_CHAR => .ok "."
  | .WILD_SEQUENCE => .ok "[^.]*"
  | .WILD_PATH => .ok ".*"
  | .CHAR_SELECT_BEGIN => .ok "["
  | .CHAR_SELECT_NEGATED_BEGIN => .ok "[^"
  | .CHAR_SELECT_RANGE_DASH => .ok "-"
  | .CHAR_SELECT_END => .ok "]"
  | .EXPR_SELECT_BEGIN => .ok "("
  | .EXPR_SELECT_SEPARATOR => .ok "|"
  | .EXPR_SELECT_END => .ok ")"

/-- The `ans += ...` loop of `glob_to_regex` over an already-produced token
list, with explicit accumulator. -/
def compileFold (acc : String) : List Tok → Except String String
  | [] => .ok acc
  | (t, d) :: ts =>
    match compileToken t d with
    | .ok frag => compileFold (acc ++ frag) ts
    | .error e => .error e

/-- `glob_to_regex(glob)` of the source: tokenize, substitute each token,
anchor with `^` and `$`. -/
def glob_to_regex (glob : String) : Except String String :=
  match tokenize glob with
  | .ok ts =>
    match compileFold "" ts with
    | .ok ans => .ok ("^" ++ ans ++ "$")
    | .error e => .error e
  | .error e => .error e

example : tokenize "a**b" =
    .ok [(TokenType.LITERAL, some "a"), (TokenType.WILD_PATH, some ""),
         (TokenType.LITERAL, some "b")] := by decide

example : glob_to_regex "a.**.c" = .ok "^a\\..*\\.c$" := by decide

example : glob_to_regex "**" = .ok "^.*$" := by decide

example : glob_to_regex "*" = .ok "^[^.]*$" := by decide

example : glob_to_regex "?" = .ok "^.$" := by decide

example : tokenize "\x7ba,\\b\x7d" =
    .ok [(TokenType.EXPR_SELECT_BEGIN, some ""), (TokenType.LITERAL, some "a"),
         (TokenType.EXPR_SELECT_SEPARATOR, some ""),
         (TokenType.EXPR_SELECT_END, some "")] := by decide

/-! ## A model of the regular-expression fragment emitted by `glob_to_regex`

The emitted strings use: plain characters, `\`-escaped characters, `.`,
character classes `[...]` and `[^...]` with ranges, groups `(...)`, the
alternation bar, and `*`, the whole wrapped in `^...$`.  They are given
semantics through a small syntax tree and a Brzozowski-derivative matcher;
`.` is modelled as matching any character (metric names never contain the
newline that Python `re` excludes). -/

/-- One item of a character class: a single character or a range. -/
inductive ClsItem where
  | single (c : Char)
  | range (lo hi : Char)
  deriving DecidableEq, Repr

/-- Whether a character is matched by one class item. -/
def clsItemMatch (c : Char) : ClsItem → Bool
  | .single a => c == a
  | .range lo hi => decide (lo ≤ c) && decide (c ≤ hi)

/-- Whether a character is matched by a (possibly negated) class. -/
def clsMatch (neg : Bool) (items : List ClsItem) (c : Char) : Bool :=
  let m := items.any (clsItemMatch c)
  if neg then !m else m

/-- Syntax of the regular-expression fragment. -/
inductive Regex where
  | emptyset
  | eps
  | char (c : Char)
  | anyChar
  | cls (neg : Bool) (items : List ClsItem)
  | cat (r₁ r₂ : Regex)
  | alt (r₁ r₂ : Regex)
  | star (r : Regex)
  deriving DecidableEq, Repr

/-- Whether a regex accepts the empty word. -/
def nullable : Regex → Bool
  | .emptyset => false
  | .eps => true
  | .char _ => false
  | .anyChar => false
  | .cls _ _ => false
  | .cat r₁ r₂ => nullable r₁ && nullable r₂
  | .alt r₁ r₂ => nullable r₁ || nullable r₂
  | .star _ => true

/-- Brzozowski derivative: `deriv r c` accepts `s` iff `r` accepts `c :: s`. -/
def deriv : Regex → Char → Regex
  | .emptyset, _ => .emptyset
  | .eps, _ => .emptyset
  | .char a, c => if a = c then .eps else .emptyset
  | .anyChar, _ => .eps
  | .cls neg items, c => if clsMatch neg items c then .eps else .emptyset
  | .cat r₁ r₂, c =>
    if nullable r₁ then .alt (.cat (deriv r₁ c) r₂) (deriv r₂ c)
    else .cat (deriv r₁ c) r₂
  | .alt r₁ r₂, c => .alt (deriv r₁ c) (deriv r₂ c)
  | .star r, c => .cat (deriv r c) (.star r)

/-- The derivative-based matcher. -/
def rmatch : Regex → List Char → Bool
  | r, [] => nullable r
  | r, c :: cs => rmatch (deriv r c) cs

/-- Right-nested concatenation of a list of regexes (empty list is `eps`). -/
def catChainOf : List Regex → Regex
  | [] => .eps
  | [r] => r
  | r :: rs => .cat r (catChainOf rs)

/-- Right-nested alternation ending in `last`. -/
def altChainOf : List Regex → Regex → Regex
  | [], last => last
  | a :: rest, last => .alt a (altChainOf rest last)

/-- Close a concatenation level of the parser: the pending atoms are held in
reverse order. -/
def mkCat (cat : List Regex) : Regex := catChainOf cat.reverse

/-- Close an alternation level of the parser: the completed alternatives are
held in reverse order, `last` being the final one. -/
def mkAlt (alts : List Regex) (last : Regex) : Regex :=
  altChainOf alts.reverse last

/-- Lexer tokens of the regex fragment. -/
inductive RTok where
  | lparen
  | rparen
  | bar
  | star
  | atom (r : Regex)
  deriving DecidableEq, Repr

/-- Lexer for the regex fragment.  `none` as first argument is the ordinary
mode; `some (neg, acc)` scans the inside of a character class with negation
flag `neg` and the items read so far in `acc` (reversed).  Ranges whose
endpoints are written escaped are modelled as literal items; `glob_to_regex`
emits ranges only with unescaped endpoints. -/
def rlexAux : Option (Bool × List ClsItem) → List Char → Option (List RTok)
  | none, [] => some []
  | none, '(' :: cs => (rlexAux none cs).map (fun ts => .lparen :: ts)
  | none, ')' :: cs => (rlexAux none cs).map (fun ts => .rparen :: ts)
  | none, '|' :: cs => (rlexAux none cs).map (fun ts => .bar :: ts)
  | none, '*' :: cs => (rlexAux none cs).map (fun ts => .star :: ts)
  | none, ['\\'] => none
  | none, '\\' :: c :: cs => (rlexAux none cs).map (fun ts => .atom (.char c) :: ts)
  | none, '.' :: cs => (rlexAux none cs).map (fun ts => .atom .anyChar :: ts)
  | none, '[' :: '^' :: cs => rlexAux (some (true, [])) cs
  | none, '[' :: cs => rlexAux (some (false, [])) cs
  | none, c :: cs => (rlexAux none cs).map (fun ts => .atom (.char c) :: ts)
  | some _, [] => none
  | some (neg, acc), ']' :: cs =>
    (rlexAux none cs).map (fun ts => .atom (.cls neg acc.reverse) :: ts)
  | some _, ['\\'] => none
  | some (neg, acc), '\\' :: c :: cs => rlexAux (some (neg, .single c :: acc)) cs
  | some (neg, acc), a :: '-' :: ']' :: cs =>
    (rlexAux none cs).map
      (fun ts => .atom (.cls neg (ClsItem.single '-' :: .single a :: acc).reverse) :: ts)
  | some (neg, acc), a :: '-' :: b :: cs => rlexAux (some (neg, .range a b :: acc)) cs
  | some (neg, acc), c :: cs => rlexAux (some (neg, .single c :: acc)) cs

/-- Parser for the lexed regex fragment: `stack` holds the suspended
`(alternatives, concatenation)` pairs of the open groups, `alts` and `cat`
the current level (both reversed). -/
def parseToks : List RTok → List (List Regex × List Regex) → List Regex →
    List Regex → Option Regex
  | [], stack, alts, cat =>
    match stack with
    | [] => some (mkAlt alts (mkCat cat))
    | _ :: _ => none
  | .lparen :: ts, stack, alts, cat => parseToks ts ((alts, cat) :: stack) [] []
  | .rparen :: ts, stack, alts, cat =>
    match stack with
    | (alts', cat') :: st => parseToks ts st alts' (mkAlt alts (mkCat cat) :: cat')
    | [] => none
  | .bar :: ts, stack, alts, cat => parseToks ts stack (mkCat cat :: alts) []
  | .star :: ts, stack, alts, cat =>
    match cat with
    | a :: rest => parseToks ts stack alts (.star a :: rest)
    | [] => none
  | .atom r :: ts, stack, alts, cat => parseToks ts stack alts (r :: cat)

/-- Parse a regex body (no anchors) into the syntax tree. -/
def parseRegexChars (cs : List Char) : Option Regex :=
  match rlexAux none cs with
  | some ts => parseToks ts [] [] []
  | none => none

/-- Strip the `^...$` anchors that `glob_to_regex` always emits. -/
def stripAnchors : List Char → Option (List Char)
  | '^' :: rest => if rest.getLast? = some '$' then some rest.dropLast else none
  | _ => none

/-- Whether an anchored regex string (as produced by `glob_to_regex`) matches
the whole of `s`, i.e. Python `re.match` with the `^...$` pattern. -/
def reFullMatch (regexStr : String) (s : String) : Bool :=
  match stripAnchors regexStr.toList with
  | some inner =>
    match parseRegexChars inner with
    | some r => rmatch r s.toList
    | none => false
  | none => false

/-- Whether the compiled regex of the glob pattern `g` accepts the candidate
name: `re.match(glob_to_regex(g), name)` succeeds. -/
def globRegexAccepts (g name : String) : Bool :=
  match glob_to_regex g with
  | .ok rs => reFullMatch rs name
  | .error _ => false

/-! ## `_is_graphite_glob`, `_is_valid_glob` and the prefilter `glob` -/

/-- The character class of `_GRAPHITE_GLOB_RE = re.compile(r"^[^*?{}\[\]]+$")`. -/
def graphiteGlobCls : Regex :=
  .cls true [.single '*', .single '?', .single '{', .single '}',
             .single '[', .single ']']

/-- `_is_graphite_glob(metric_component)`: true iff the anchored regex
`[^*?{}\[\]]+` does not match the component (`.match(...) is None`). -/
def is_graphite_glob (metric_component : String) : Bool :=
  !(rmatch (.cat graphiteGlobCls (.star graphiteGlobCls))
      metric_component.toList)

/-- The character loop of `_is_valid_glob`, carrying the brace `depth`
(a Python `int`).  `}` first decrements, then the source returns `False` the
moment the depth is negative; `.` at positive depth returns `False`; the end
of the string requires depth zero. -/
def is_valid_glob_aux (depth : Int) : List Char → Bool
  | [] => depth == 0
  | c :: cs =>
    if c = '{' then is_valid_glob_aux (depth + 1) cs
    else if c = '}' then
      if depth - 1 < 0 then false else is_valid_glob_aux (depth - 1) cs
    else if c = '.' then
      if depth > 0 then false else is_valid_glob_aux depth cs
    else is_valid_glob_aux depth cs

/-- `_is_valid_glob(glob)` of the source. -/
def is_valid_glob (glob : String) : Bool := is_valid_glob_aux 0 glob.toList

/-- Python truthiness of the `globstar` variable of `glob`: both `None` and
the index `0` are falsy. -/
def optTruthy : Option Nat → Bool
  | none => false
  | some n => n != 0

/-- The `for (index, component) in enumerate(glob_components)` loop of `glob`:
`n` is `len(glob_components)`, `idx` the current index, and the three
accumulators are `globstar`, `prefix_literals` and `suffix_literals`. -/
def globScanAux (n : Nat) (idx : Nat) (globstar : Option Nat)
    (pre suf : List (Nat × String)) :
    List String → Option Nat × List (Nat × String) × List (Nat × String)
  | [] => (globstar, pre, suf)
  | comp :: rest =>
    if comp = "**" then
      globScanAux n (idx + 1) (some idx) pre suf rest
    else if optTruthy globstar then
      -- "Indexed relative to the end because globstar length is arbitrary"
      globScanAux n (idx + 1) globstar pre (suf ++ [(n - idx, comp)]) rest
    else if !(is_graphite_glob comp) then
      globScanAux n (idx + 1) globstar (pre ++ [(idx, comp)]) suf rest
    else
      globScanAux n (idx + 1) globstar pre suf rest

/-- The scan of `glob` over the dot-split components of the pattern. -/
def globScan (glob_pattern : String) :
    Option Nat × List (Nat × String) × List (Nat × String) :=
  let glob_components := pySplit glob_pattern '.'
  globScanAux glob_components.length 0 none [] [] glob_components

/-- `maybe_matched_prefilter(metric)` of the source.  `metric_components[i]`
is Python list indexing, modelled with `List.getD`; every recorded index is
in bounds once the component-count test has passed. -/
def maybe_matched_prefilter (globstar : Option Nat) (gcLen : Nat)
    (pre suf : List (Nat × String)) (metric : String) : Bool :=
  let metric_components := pySplit metric '.'
  if optTruthy globstar then
    if metric_components.length < gcLen then false
    else (suf ++ pre).all (fun iv => metric_components.getD iv.1 "" == iv.2)
  else if metric_components.length ≠ gcLen then false
  else (suf ++ pre).all (fun iv => metric_components.getD iv.1 "" == iv.2)

/-- `glob(metric_names, glob_pattern)` of the source: the prefilter. -/
def glob (metric_names : List String) (glob_pattern : String) : List String :=
  let glob_components := pySplit glob_pattern '.'
  let scan := globScan glob_pattern
  metric_names.filter
    (maybe_matched_prefilter scan.1 glob_components.length scan.2.1 scan.2.2)

example : glob ["a.b.c"] "a.**.c" = [] := by decide

example : globRegexAccepts "a.**.c" "a.b.c" = true := by decide

example : glob ["x.y.a"] "**.a" = [] := by decide

example : globRegexAccepts "**.a" "x.y.a" = true := by decide

example : globScan "a.**.b*" = (some 1, [(0, "a")], [(1, "b*")]) := by decide

example : glob ["a.x.y.c"] "a.**.c" = [] := by decide

example : globRegexAccepts "a.**.c" "a.x.y.c" = true := by decide

example : (globScan "a.**.b.**.c").1 = some 3 := by decide

example : glob ["a.b", "a.cc", "b.c"] "a.*" = ["a.b", "a.cc"] := by decide

example : is_valid_glob "a.b" = true ∧ is_valid_glob "\x7ba\x7d.b" = true ∧
    is_valid_glob "\x7b" = false ∧ is_valid_glob "\x7d\x7b" = false := by decide

example : is_graphite_glob "" = true ∧ is_graphite_glob "a.a" = false ∧
    is_graphite_glob "a*" = true ∧ is_graphite_glob "a-z" = false := by decide

example : globRegexAccepts "foo.\x7bbar*,bli\x7d" "foo.bart" = true ∧
    globRegexAccepts "foo.\x7bbar*,bli\x7d" "foo.blo" = false := by decide

/-! ## Matcher lemmas -/

@[simp]
theorem rmatch_nil (r : Regex) : rmatch r [] = nullable r := rfl

@[simp]
theorem rmatch_cons (r : Regex) (c : Char) (cs : List Char) :
    rmatch r (c :: cs) = rmatch (deriv r c) cs := rfl

theorem emptyset_rmatch (s : List Char) : rmatch .emptyset s = false := by
  induction s <;> simp [nullable, deriv, *]

theorem eps_rmatch_iff (s : List Char) : rmatch .eps s = true ↔ s = [] := by
  cases s with
  | nil => simp [nullable]
  | cons c cs => simp [deriv, emptyset_rmatch]

theorem char_rmatch_iff (a : Char) (s : List Char) :
    rmatch (.char a) s = true ↔ s = [a] := by
  cases s with
  | nil => simp [nullable]
  | cons c cs =>
    by_cases h : a = c
    · subst h
      simp [deriv, eps_rmatch_iff]
    · simp only [rmatch_cons, deriv, if_neg h]
      rw [emptyset_rmatch]
      constructor
      · intro hf; cases hf
      · intro hd
        injection hd with h1 h2
        exact absurd h1.symm h

theorem anyChar_rmatch_iff (s : List Char) :
    rmatch .anyChar s = true ↔ ∃ c, s = [c] := by
  cases s with
  | nil => simp [nullable]
  | cons c cs => simp [deriv, eps_rmatch_iff]

theorem cls_rmatch_iff (neg : Bool) (items : List ClsItem) (s : List Char) :
    rmatch (.cls neg items) s = true ↔
      ∃ c, s = [c] ∧ clsMatch neg items c = true := by
  cases s with
  | nil => simp [nullable]
  | cons c cs =>
    by_cases h : clsMatch neg items c = true
    · simp only [rmatch_cons, deriv, if_pos h]
      rw [eps_rmatch_iff]
      constructor
      · intro hcs
        subst hcs
        exact ⟨c, rfl, h⟩
      · rintro ⟨d, hd, hm⟩
        exact (List.cons_eq_cons.mp hd).2
    · simp only [rmatch_cons, deriv, if_neg h]
      rw [emptyset_rmatch]
      constructor
      · intro hf; cases hf
      · rintro ⟨d, hd, hm⟩
        obtain ⟨rfl, rfl⟩ : c = d ∧ cs = [] := by
          injection hd with h1 h2; exact ⟨h1, h2⟩
        exact absurd hm h

theorem alt_rmatch_iff (r₁ r₂ : Regex) (s : List Char) :
    rmatch (.alt r₁ r₂) s = true ↔
      rmatch r₁ s = true ∨ rmatch r₂ s = true := by
  induction s generalizing r₁ r₂ with
  | nil => simp [nullable]
  | cons c cs ih => simpa [deriv] using ih (deriv r₁ c) (deriv r₂ c)

theorem cat_rmatch_iff (r₁ r₂ : Regex) (s : List Char) :
    rmatch (.cat r₁ r₂) s = true ↔
      ∃ t u, s = t ++ u ∧ rmatch r₁ t = true ∧ rmatch r₂ u = true := by
  induction s generalizing r₁ r₂ with
  | nil =>
    simp only [rmatch_nil, nullable, Bool.and_eq_true]
    constructor
    · rintro ⟨h₁, h₂⟩
      exact ⟨[], [], rfl, h₁, h₂⟩
    · rintro ⟨t, u, h, h₁, h₂⟩
      obtain ⟨rfl, rfl⟩ := List.append_eq_nil.mp h.symm
      exact ⟨h₁, h₂⟩
  | cons c cs ih =>
    simp only [rmatch_cons, deriv]
    by_cases hn : nullable r₁ = true
    · rw [if_pos hn, alt_rmatch_iff, ih]
      constructor
      · rintro (⟨t, u, h, h₁, h₂⟩ | h)
        · exact ⟨c :: t, u, by simp [h], h₁, h₂⟩
        · exact ⟨[], c :: cs, rfl, hn, h⟩
      · rintro ⟨t, u, h, h₁, h₂⟩
        cases t with
        | nil =>
          right
          simp only [List.nil_append] at h
          rw [← h] at h₂
          exact h₂
        | cons b t =>
          left
          rw [List.cons_append] at h
          injection h with hb ht
          subst hb
          exact ⟨t, u, ht, h₁, h₂⟩
    · rw [if_neg hn, ih]
      constructor
      · rintro ⟨t, u, h, h₁, h₂⟩
        exact ⟨c :: t, u, by simp [h], h₁, h₂⟩
      · rintro ⟨t, u, h, h₁, h₂⟩
        cases t with
        | nil =>
          simp only [rmatch_nil] at h₁
          exact absurd h₁ hn
        | cons b t =>
          rw [List.cons_append] at h
          injection h with hb ht
          subst hb
          exact ⟨t, u, ht, h₁, h₂⟩

/-- Kleene star of a regex whose language is a set of single characters: it
accepts exactly the words all of whose characters are accepted. -/
theorem star_singleton_rmatch_iff (r : Regex) (P : Char → Bool)
    (hr : ∀ s, rmatch r s = true ↔ ∃ c, s = [c] ∧ P c = true) (s : List Char) :
    rmatch (.star r) s = true ↔ s.all P = true := by
  induction s with
  | nil => simp [nullable]
  | cons c cs ih =>
    simp only [rmatch_cons, deriv, List.all_cons, Bool.and_eq_true]
    rw [cat_rmatch_iff]
    constructor
    · rintro ⟨t, u, h, h₁, h₂⟩
      have : rmatch r (c :: t) = true := h₁
      rw [hr] at this
      obtain ⟨d, hd, hP⟩ := this
      obtain ⟨rfl, rfl⟩ : c = d ∧ t = [] := by
        injection hd with h1 h2; exact ⟨h1, h2⟩
      simp only [List.nil_append] at h
      subst h
      exact ⟨hP, ih.mp h₂⟩
    · rintro ⟨hP, hall⟩
      refine ⟨[], cs, rfl, ?_, ih.mpr hall⟩
      show rmatch r [c] = true
      rw [hr]
      exact ⟨c, rfl, hP⟩

/-- The concatenation of single-character regexes accepts exactly that word. -/
theorem catChain_chars_rmatch_iff (cs s : List Char) :
    rmatch (catChainOf (cs.map .char)) s = true ↔ s = cs := by
  induction cs generalizing s with
  | nil => simpa [catChainOf] using eps_rmatch_iff s
  | cons c rest ih =>
    cases rest with
    | nil => simpa [catChainOf] using char_rmatch_iff c s
    | cons c₂ rest₂ =>
      show rmatch (.cat (.char c) (catChainOf ((c₂ :: rest₂).map .char))) s = true ↔ _
      rw [cat_rmatch_iff]
      constructor
      · rintro ⟨t, u, h, h₁, h₂⟩
        rw [char_rmatch_iff] at h₁
        subst h₁
        rw [ih] at h₂
        subst h₂
        exact h
      · rintro rfl
        exact ⟨[c], c₂ :: rest₂, rfl, (char_rmatch_iff c [c]).mpr rfl,
          (ih _).mpr rfl⟩

/-- One or more repetitions (`r r*`) of a regex whose language is a set of
single characters: it accepts exactly the nonempty words all of whose
characters are accepted. -/
theorem plus_singleton_rmatch_iff (r : Regex) (P : Char → Bool)
    (hr : ∀ s, rmatch r s = true ↔ ∃ c, s = [c] ∧ P c = true) (s : List Char) :
    rmatch (.cat r (.star r)) s = true ↔ s ≠ [] ∧ s.all P = true := by
  rw [cat_rmatch_iff]
  constructor
  · rintro ⟨t, u, rfl, h₁, h₂⟩
    rw [hr] at h₁
    obtain ⟨c, rfl, hP⟩ := h₁
    rw [star_singleton_rmatch_iff r P hr] at h₂
    exact ⟨by simp, by simp [hP, h₂]⟩
  · rintro ⟨hne, hall⟩
    cases s with
    | nil => exact absurd rfl hne
    | cons c cs =>
      simp only [List.all_cons, Bool.and_eq_true] at hall
      refine ⟨[c], cs, rfl, (hr [c]).mpr ⟨c, rfl, hall.1⟩, ?_⟩
      rw [star_singleton_rmatch_iff r P hr]
      exact hall.2

/-- Evaluation helper: once the compiled regex string, its anchor-stripped
body and its parse are known, `globRegexAccepts` is the matcher on the
parsed regex. -/
theorem globRegexAccepts_eq (g rs : String) (inner : List Char) (r : Regex)
    (h1 : glob_to_regex g = .ok rs) (h2 : stripAnchors rs.toList = some inner)
    (h3 : parseRegexChars inner = some r) (name : String) :
    globRegexAccepts g name = rmatch r name.toList := by
  simp only [globRegexAccepts, reFullMatch, h1, h2, h3]

/-! ## The claims -/

/-- Claim C1.  "For every glob pattern `p` and finite candidate list `C`,
every name in `C` matched by the anchored regex produced by
`glob_to_regex(p)` is also contained in the output of `glob(C, p)`."  This
fails on the code: for the pattern `a.**.c` the suffix constraint `(1, "c")`
is checked at absolute index 1 instead of end-relatively, so the candidate
`a.b.c`, which the compiled regex `^a\..*\.c$` accepts, is filtered out. -/
theorem prefilter_rejects_regex_accepted_name :
    globRegexAccepts "a.**.c" "a.b.c" = true ∧
    glob ["a.b.c"] "a.**.c" = [] := by decide

/-- Claim C2.  "The prefilter records a constraint only for components after
the globstar that are plain literals, and rejects exactly on an end-relative
mismatch."  Both parts fail on the code: for `a.**.b*` the non-literal
component `b*` is recorded as the suffix constraint `(1, "b*")` (and the
regex-matching candidate `a.x.bz` is rejected through it), and for `a.**.c`
the candidate `a.x.y.c`, whose component at end-relative distance 1 equals
the recorded literal `c`, is rejected because the check uses absolute
index 1. -/
theorem prefilter_suffix_constraints_diverge :
    globScan "a.**.b*" = (some 1, [(0, "a")], [(1, "b*")]) ∧
    is_graphite_glob "b*" = true ∧
    globRegexAccepts "a.**.b*" "a.x.bz" = true ∧
    glob ["a.x.bz"] "a.**.b*" = [] ∧
    (pySplit "a.x.y.c" '.').getD ((pySplit "a.x.y.c" '.').length - 1) "" = "c" ∧
    globRegexAccepts "a.**.c" "a.x.y.c" = true ∧
    glob ["a.x.y.c"] "a.**.c" = [] := by decide

/-- Claim C3.  "When the pattern contains a `**` component at any index,
including index 0, the prefilter keeps a name iff its component count is at
least the pattern's."  This fails on the code for a globstar at index 0: the
Python test `if globstar:` treats the recorded index `0` as falsy, so the
pattern `**.a` demands an exact component count of 2 and rejects `x.y.a`
(3 components, accepted by the compiled regex `^.*\.a$`). -/
theorem prefilter_globstar_at_zero_uses_exact_count :
    (globScan "**.a").1 = some 0 ∧
    (pySplit "**.a" '.').length = 2 ∧
    (pySplit "x.y.a" '.').length = 3 ∧
    globRegexAccepts "**.a" "x.y.a" = true ∧
    glob ["x.y.a"] "**.a" = [] := by decide

/-- Claim C5.  "A backslash escapes the next character, which is appended to
the current literal run, and the emitted tokens cover the entire input; in
particular for `{a,\b}` a `LITERAL` token containing `b` is emitted."  The
coverage part fails on the code: the escape branch appends to `tmp` without
setting the pending-token flag, so when the escape starts a fresh literal
run the buffered character is dropped at the next special character — for
`{a,\b}` no emitted token contains `b` at all. -/
theorem tokenize_drops_escaped_char_in_fresh_run :
    tokenize "\x7ba,\\b\x7d" =
      .ok [(TokenType.EXPR_SELECT_BEGIN, some ""),
           (TokenType.LITERAL, some "a"),
           (TokenType.EXPR_SELECT_SEPARATOR, some ""),
           (TokenType.EXPR_SELECT_END, some "")] ∧
    [(TokenType.EXPR_SELECT_BEGIN, some ""),
     (TokenType.LITERAL, some "a"),
     (TokenType.EXPR_SELECT_SEPARATOR, some ""),
     (TokenType.EXPR_SELECT_END, (some "" : Option String))].all
      (fun td => !((td.2.getD "").toList.contains 'b')) = true := by decide

/-- Claim C4, counterexample.  The claim says the prefilter records the index
of the *first* `**` occurrence; on `a.**.b.**.c` the first occurrence is at
index 1 but the scan records `some 3`, the index of the last occurrence. -/
theorem globstar_index_not_first_occurrence :
    (globScan "a.**.b.**.c").1 = some 3 ∧
    (pySplit "a.**.b.**.c" '.').findIdx (fun comp => comp == "**") = 1 ∧
    (3 : Nat) ≠ 1 := by decide

/-- Claim C9, counterexample.  The claim says the plain-literal predicate
(the negation of `_is_graphite_glob`) holds iff the component contains none
of `* ? { } [ ]`, including for the empty string; but the underlying regex
`^[^*?{}\[\]]+$` requires at least one character, so the empty string, which
contains none of those characters, still fails the predicate. -/
theorem plain_literal_fails_on_empty_string :
    ¬(((!(is_graphite_glob "")) = true) ↔
      (("".toList.all (fun c => !(['*', '?', '\x7b', '\x7d', '[', ']'].contains c))) = true)) := by
  decide

/-- Claim C9, amended.  The plain-literal predicate holds iff the component
is nonempty and contains none of `* ? { } [ ]`. -/
theorem plain_literal_iff_nonempty_no_meta (s : String) :
    (!(is_graphite_glob s)) = true ↔
      s ≠ "" ∧
      (s.toList.all (fun c => !(['*', '?', '\x7b', '\x7d', '[', ']'].contains c))) = true := by
  have hcls : ∀ c : Char,
      clsMatch true [ClsItem.single '*', .single '?', .single '\x7b',
        .single '\x7d', .single '[', .single ']'] c =
      !(['*', '?', '\x7b', '\x7d', '[', ']'].contains c) := by
    intro c
    have hbeq : ∀ a b : Char, (a == b) = decide (a = b) := fun a b => by
      by_cases h : a = b <;> simp [h]
    simp [clsMatch, clsItemMatch, List.contains, List.any, hbeq]
  have h := plus_singleton_rmatch_iff graphiteGlobCls
    (fun c => !(['*', '?', '\x7b', '\x7d', '[', ']'].contains c))
    (fun t => by
      simpa [graphiteGlobCls, hcls] using
        cls_rmatch_iff true [ClsItem.single '*', .single '?', .single '\x7b',
          .single '\x7d', .single '[', .single ']'] t)
    s.toList
  unfold is_graphite_glob
  rw [Bool.not_not]
  rw [h]
  constructor
  · rintro ⟨hne, hall⟩
    refine ⟨?_, hall⟩
    intro hempty
    subst hempty
    exact hne rfl
  · rintro ⟨hne, hall⟩
    refine ⟨?_, hall⟩
    intro hnil
    exact hne (by
      cases s with
      | mk data => simp at hnil; simp [hnil])

/-- Claim C6.  An unescaped `**` is one `WILD_PATH` token compiled to `.*`,
which matches every string (separators included); a lone `*` is
`WILD_SEQUENCE` compiled to `[^.]*`, which matches exactly the strings with
no separator; `?` is `WILD_CHAR` compiled to `.`, which matches exactly the
one-character strings, the separator dot included. -/
theorem wildcard_compilation_semantics :
    tokenize "a**b" =
      .ok [(TokenType.LITERAL, some "a"), (TokenType.WILD_PATH, some ""),
           (TokenType.LITERAL, some "b")] ∧
    glob_to_regex "**" = .ok "^.*$" ∧
    (∀ s : String, globRegexAccepts "**" s = true) ∧
    glob_to_regex "*" = .ok "^[^.]*$" ∧
    (∀ s : String, globRegexAccepts "*" s = true ↔ ∀ c ∈ s.toList, c ≠ '.') ∧
    glob_to_regex "?" = .ok "^.$" ∧
    (∀ s : String, globRegexAccepts "?" s = true ↔ s.length = 1) ∧
    globRegexAccepts "?" "." = true := by
  refine ⟨by decide, by decide, ?_, by decide, ?_, by decide, ?_, by decide⟩
  · intro s
    rw [globRegexAccepts_eq "**" "^.*$" ['.', '*'] (.star .anyChar)
      (by decide) (by decide) (by decide) s]
    rw [star_singleton_rmatch_iff .anyChar (fun _ => true)
      (fun t => by simpa using anyChar_rmatch_iff t) s.toList]
    simp
  · intro s
    rw [globRegexAccepts_eq "*" "^[^.]*$" ['[', '^', '.', ']', '*']
      (.star (.cls true [.single '.'])) (by decide) (by decide) (by decide) s]
    rw [star_singleton_rmatch_iff (.cls true [.single '.'])
      (fun c => !(c == '.'))
      (fun t => by simpa [clsMatch, clsItemMatch] using
        cls_rmatch_iff true [.single '.'] t) s.toList]
    simp
  · intro s
    rw [globRegexAccepts_eq "?" "^.$" ['.'] .anyChar
      (by decide) (by decide) (by decide) s]
    have hlen : s.length = s.toList.length := rfl
    cases hs : s.toList with
    | nil =>
      rw [hlen, hs]
      simp [nullable]
    | cons c cs =>
      rw [hlen, hs, anyChar_rmatch_iff]
      constructor
      · rintro ⟨d, hd⟩
        injection hd with h1 h2
        simp [h2]
      · intro hl
        have : cs = [] := by
          cases cs with
          | nil => rfl
          | cons _ _ => simp at hl
        exact ⟨c, by rw [this]⟩

/-! ## The globstar scan records the last `**` occurrence -/

/-- The index (counting from `idx`) of the last element equal to `**`. -/
def lastStarIdx (idx : Nat) : List String → Option Nat
  | [] => none
  | comp :: rest =>
    match lastStarIdx (idx + 1) rest with
    | some j => some j
    | none => if comp = "**" then some idx else none

theorem globScanAux_fst (comps : List String) :
    ∀ n idx gs pre suf, (globScanAux n idx gs pre suf comps).1 =
      match lastStarIdx idx comps with
      | some j => some j
      | none => gs := by
  induction comps with
  | nil => intros; rfl
  | cons comp rest ih =>
    intro n idx gs pre suf
    have hstep : globScanAux n idx gs pre suf (comp :: rest) =
        if comp = "**" then globScanAux n (idx + 1) (some idx) pre suf rest
        else if optTruthy gs then
          globScanAux n (idx + 1) gs pre (suf ++ [(n - idx, comp)]) rest
        else if !(is_graphite_glob comp) then
          globScanAux n (idx + 1) gs (pre ++ [(idx, comp)]) suf rest
        else globScanAux n (idx + 1) gs pre suf rest := rfl
    have hstep2 : lastStarIdx idx (comp :: rest) =
        match lastStarIdx (idx + 1) rest with
        | some j => some j
        | none => if comp = "**" then some idx else none := rfl
    rw [hstep, hstep2]
    by_cases h : comp = "**"
    · rw [if_pos h, ih]
      cases hl : lastStarIdx (idx + 1) rest <;> simp [h, hl]
    · rw [if_neg h]
      cases hl : lastStarIdx (idx + 1) rest with
      | some j => split_ifs <;> rw [ih] <;> simp [hl]
      | none => split_ifs <;> rw [ih] <;> simp [hl, h]

theorem lastStarIdx_none (comps : List String) :
    ∀ idx : Nat, lastStarIdx idx comps = none → ∀ k : Nat, comps[k]? ≠ some "**" := by
  induction comps with
  | nil => intro idx _ k; simp
  | cons comp rest ih =>
    intro idx h k
    unfold lastStarIdx at h
    cases hl : lastStarIdx (idx + 1) rest with
    | some j => rw [hl] at h; cases h
    | none =>
      rw [hl] at h
      by_cases hc : comp = "**"
      · rw [if_pos hc] at h; cases h
      · cases k with
        | zero => simp [hc]
        | succ k' => simpa using ih (idx + 1) hl k'

theorem lastStarIdx_spec (comps : List String) :
    ∀ idx i : Nat, lastStarIdx idx comps = some i →
      idx ≤ i ∧ comps[i - idx]? = some "**" ∧
        ∀ k : Nat, i - idx < k → comps[k]? ≠ some "**" := by
  induction comps with
  | nil => intro idx i h; cases h
  | cons comp rest ih =>
    intro idx i h
    unfold lastStarIdx at h
    cases hl : lastStarIdx (idx + 1) rest with
    | some j =>
      rw [hl] at h
      injection h with hj
      subst hj
      obtain ⟨hle, hmem, hlast⟩ := ih (idx + 1) j hl
      have hix : j - idx = (j - (idx + 1)) + 1 := by omega
      refine ⟨by omega, ?_, ?_⟩
      · rw [hix]; simpa using hmem
      · intro k hk
        cases k with
        | zero => omega
        | succ k' =>
          simp only [List.getElem?_cons_succ]
          exact hlast k' (by omega)
    | none =>
      rw [hl] at h
      by_cases hc : comp = "**"
      · rw [if_pos hc] at h
        injection h with hi
        subst hi
        refine ⟨le_refl _, by simp [hc], ?_⟩
        intro k hk
        cases k with
        | zero => omega
        | succ k' => simpa using lastStarIdx_none rest (idx + 1) hl k'
      · rw [if_neg hc] at h; cases h

theorem lastStarIdx_isSome (comps : List String) :
    ∀ idx : Nat, "**" ∈ comps → ∃ i : Nat, lastStarIdx idx comps = some i := by
  induction comps with
  | nil => intro idx h; cases h
  | cons comp rest ih =>
    intro idx hmem
    unfold lastStarIdx
    cases hl : lastStarIdx (idx + 1) rest with
    | some j => exact ⟨j, rfl⟩
    | none =>
      rcases List.mem_cons.mp hmem with h | h
      · exact ⟨idx, by rw [if_pos h.symm]⟩
      · obtain ⟨k, hk, hke⟩ := List.mem_iff_getElem.mp h
        exact absurd (by rw [List.getElem?_eq_getElem hk, hke])
          (lastStarIdx_none rest (idx + 1) hl k)

/-- Claim C4, amended.  When the pattern's components contain more than one
`**`, the scan records the index of the last occurrence: the recorded index
points at a `**` component and no later component is `**`. -/
theorem globstar_tracks_last_occurrence (g : String)
    (h : 1 < (pySplit g '.').count "**") :
    ∃ i : Nat, (globScan g).1 = some i ∧ (pySplit g '.')[i]? = some "**" ∧
      ∀ j : Nat, i < j → (pySplit g '.')[j]? ≠ some "**" := by
  have hmem : "**" ∈ pySplit g '.' := by
    have : 0 < (pySplit g '.').count "**" := by omega
    exact List.count_pos_iff.mp this
  obtain ⟨i, hi⟩ := lastStarIdx_isSome (pySplit g '.') 0 hmem
  obtain ⟨hle, hmm, hlast⟩ := lastStarIdx_spec (pySplit g '.') 0 i hi
  refine ⟨i, ?_, by simpa using hmm, fun j hj => by simpa using hlast j (by omega)⟩
  unfold globScan
  rw [globScanAux_fst, hi]

/-- Witness for the amended Claim C4 at the pattern `a.**.b.**.c`. -/
theorem globstar_tracks_last_occurrence_witness :
    (1 < (pySplit "a.**.b.**.c" '.').count "**") ∧
    (∃ i : Nat, (globScan "a.**.b.**.c").1 = some i ∧
      (pySplit "a.**.b.**.c" '.')[i]? = some "**" ∧
      ∀ j : Nat, i < j → (pySplit "a.**.b.**.c" '.')[j]? ≠ some "**") :=
  ⟨by decide, globstar_tracks_last_occurrence "a.**.b.**.c" (by decide)⟩

/-! ## The structural validator against its specification -/

/-- Modelled from the spec: the brace-depth contribution of one character. -/
def charDelta (c : Char) : Int :=
  if c = '{' then 1 else if c = '}' then -1 else 0

/-- Modelled from the spec: the net brace depth of a character list. -/
def braceDepth : List Char → Int
  | [] => 0
  | c :: cs => charDelta c + braceDepth cs

/-- Modelled from the spec, relative to a starting depth `d`: the depth never
goes negative at any prefix, returns to zero at the end, and every `.` occurs
at non-positive depth (i.e. never inside an open group). -/
def SpecCond (d : Int) (cs : List Char) : Prop :=
  (∀ n : Nat, 0 ≤ d + braceDepth (cs.take n)) ∧
  d + braceDepth cs = 0 ∧
  (∀ n : Nat, cs[n]? = some '.' → d + braceDepth (cs.take n) ≤ 0)

theorem SpecCond_nil (d : Int) : SpecCond d [] ↔ d = 0 := by
  unfold SpecCond
  constructor
  · rintro ⟨_, h2, _⟩
    simpa [braceDepth] using h2
  · rintro rfl
    refine ⟨fun n => by simp [braceDepth], by simp [braceDepth], fun n h => by simp at h⟩

theorem SpecCond_cons (c : Char) (cs : List Char) (d : Int) :
    SpecCond d (c :: cs) ↔
      (0 ≤ d ∧ (c = '.' → d ≤ 0) ∧ SpecCond (d + charDelta c) cs) := by
  unfold SpecCond
  constructor
  · rintro ⟨h1, h2, h3⟩
    refine ⟨by simpa [braceDepth] using h1 0,
      fun hc => by simpa [braceDepth] using h3 0 (by simp [hc]), ?_, ?_, ?_⟩
    · intro n
      have := h1 (n + 1)
      simp only [List.take_succ_cons, braceDepth] at this
      omega
    · simp only [braceDepth] at h2
      omega
    · intro n hn
      have := h3 (n + 1) (by simpa using hn)
      simp only [List.take_succ_cons, braceDepth] at this
      omega
  · rintro ⟨h0, hdot, hs1, hs2, hs3⟩
    refine ⟨?_, ?_, ?_⟩
    · intro n
      cases n with
      | zero => simpa [braceDepth] using h0
      | succ n =>
        have := hs1 n
        simp only [List.take_succ_cons, braceDepth]
        omega
    · simp only [braceDepth]
      omega
    · intro n hn
      cases n with
      | zero =>
        simp only [List.getElem?_cons_zero, Option.some_inj] at hn
        simpa [braceDepth] using hdot hn
      | succ n =>
        have := hs3 n (by simpa using hn)
        simp only [List.take_succ_cons, braceDepth]
        omega

theorem is_valid_glob_aux_iff (cs : List Char) :
    ∀ d : Int, 0 ≤ d → (is_valid_glob_aux d cs = true ↔ SpecCond d cs) := by
  induction cs with
  | nil =>
    intro d hd
    rw [SpecCond_nil]
    show (d == 0) = true ↔ d = 0
    simp
  | cons c cs ih =>
    intro d hd
    rw [SpecCond_cons]
    have hstep : is_valid_glob_aux d (c :: cs) =
        if c = '{' then is_valid_glob_aux (d + 1) cs
        else if c = '}' then
          (if d - 1 < 0 then false else is_valid_glob_aux (d - 1) cs)
        else if c = '.' then
          (if d > 0 then false else is_valid_glob_aux d cs)
        else is_valid_glob_aux d cs := rfl
    rw [hstep]
    by_cases h1 : c = '{'
    · have hδ : charDelta c = 1 := by rw [h1]; decide
      rw [if_pos h1, ih (d + 1) (by omega), hδ]
      constructor
      · intro hs
        exact ⟨hd, fun hc => by rw [hc] at h1; exact absurd h1 (by decide), hs⟩
      · rintro ⟨_, _, hs⟩
        exact hs
    · rw [if_neg h1]
      by_cases h2 : c = '}'
      · have hδ : charDelta c = -1 := by rw [h2]; decide
        rw [if_pos h2, hδ]
        by_cases hdz : d - 1 < 0
        · rw [if_pos hdz]
          simp only [Bool.false_eq_true, false_iff, not_and]
          intro _ _ hs
          have := hs.1 0
          simp [braceDepth] at this
          omega
        · rw [if_neg hdz, ih (d - 1) (by omega)]
          constructor
          · intro hs
            refine ⟨hd, fun hc => by rw [hc] at h2; exact absurd h2 (by decide), ?_⟩
            have : d + -1 = d - 1 := by omega
            rw [this]
            exact hs
          · rintro ⟨_, _, hs⟩
            have : d + -1 = d - 1 := by omega
            rw [this] at hs
            exact hs
      · rw [if_neg h2]
        by_cases h3 : c = '.'
        · have hδ : charDelta c = 0 := by rw [h3]; decide
          rw [if_pos h3, hδ]
          by_cases hdp : d > 0
          · rw [if_pos hdp]
            simp only [Bool.false_eq_true, false_iff, not_and]
            intro _ hdot
            have := hdot h3
            omega
          · rw [if_neg hdp, ih d hd]
            constructor
            · intro hs
              exact ⟨hd, fun _ => by omega, by simpa using hs⟩
            · rintro ⟨_, _, hs⟩
              simpa using hs
        · have hδ : charDelta c = 0 := by simp [charDelta, h1, h2]
          rw [if_neg h3, ih d hd, hδ]
          constructor
          · intro hs
            exact ⟨hd, fun hc => absurd hc h3, by simpa using hs⟩
          · rintro ⟨_, _, hs⟩
            simpa using hs

/-- Claim C8.  `_is_valid_glob` is a total boolean test, true exactly when
the brace depth never goes negative while scanning, ends at zero, and no `.`
occurs at positive depth; together with the ten evaluations listed in the
claim. -/
theorem is_valid_glob_correct :
    (∀ g : String, is_valid_glob g = true ↔ SpecCond 0 g.toList) ∧
    is_valid_glob "\x7b" = false ∧
    is_valid_glob "\x7b\x7b\x7d" = false ∧
    is_valid_glob "\x7b\x7d\x7d" = false ∧
    is_valid_glob "\x7d\x7b" = false ∧
    is_valid_glob "\x7ba.\x7d.b" = false ∧
    is_valid_glob "\x7ba,b.\x7d.\x7b.c,d\x7d.e" = false ∧
    is_valid_glob "a.b" = true ∧
    is_valid_glob "\x7ba\x7d.b" = true ∧
    is_valid_glob "\x7ba,\x7bb,c\x7d\x7d.d" = true ∧
    is_valid_glob "\x7ba,b\x7d.\x7bc,d\x7d.e" = true := by
  refine ⟨fun g => ?_, by decide, by decide, by decide, by decide, by decide,
    by decide, by decide, by decide, by decide, by decide⟩
  have h0 : (0 : Int) ≤ 0 := le_refl 0
  have := is_valid_glob_aux_iff g.toList 0 h0
  simpa using this

/-! ## Totality of the compilation pipeline -/

theorem flushToks_payload (token : Option TokenType) (tmp : String) :
    ∀ td ∈ flushToks token tmp, td.2.isSome := by
  cases token <;> simp [flushToks]

theorem map_flush_cons_ok (kind : TokenType) (token : Option TokenType)
    (tmp : String) (res : Except String (List Tok))
    (h : ∃ ts, res = .ok ts ∧ ∀ td ∈ ts, td.2.isSome) :
    ∃ ts, (res.map (fun ts => flushToks token tmp ++ (kind, some "") :: ts)) =
        .ok ts ∧ ∀ td ∈ ts, td.2.isSome := by
  obtain ⟨ts, rfl, hall⟩ := h
  refine ⟨_, rfl, ?_⟩
  intro td htd
  rcases List.mem_append.mp htd with h1 | h1
  · exact flushToks_payload token tmp td h1
  · rcases List.mem_cons.mp h1 with rfl | h2
    · rfl
    · exact hall td h2

set_option maxHeartbeats 1000000 in
/-- As long as the pending token is `None` or `LITERAL` — which is the only
state the scanner ever reaches — the tokenizer succeeds, and every emitted
token carries a payload (the `yield token, None` branch is never taken). -/
theorem tokenizeAux_ok (ics : Bool) (tmp : String) (token : Option TokenType)
    (cs : List Char) :
    (token = none ∨ token = some TokenType.LITERAL) →
    ∃ ts, tokenizeAux ics tmp token cs = .ok ts ∧ ∀ td ∈ ts, td.2.isSome := by
  induction ics, tmp, token, cs using tokenizeAux.induct with
  | case1 ics tmp token => exact fun _ => ⟨_, rfl, flushToks_payload _ _⟩
  | case2 ics tmp token => exact fun _ => ⟨_, rfl, flushToks_payload _ _⟩
  | case3 ics tmp token c cs ih => exact fun h => ih h
  | case4 ics tmp token cs ih =>
    exact fun _ => map_flush_cons_ok _ _ _ _ (ih (Or.inl rfl))
  | case5 ics tmp token cs ih =>
    exact fun _ => map_flush_cons_ok _ _ _ _ (ih (Or.inl rfl))
  | case6 ics tmp token cs ih =>
    exact fun _ => map_flush_cons_ok _ _ _ _ (ih (Or.inl rfl))
  | case7 ics tmp token cs hne ih =>
    intro _
    have hstep : tokenizeAux ics tmp token ('*' :: cs) =
        (tokenizeAux ics (tmpAfterFlush token tmp) none cs).map
          (fun ts => flushToks token tmp ++ (TokenType.WILD_SEQUENCE, some "") :: ts) := by
      rw [tokenizeAux.eq_def]
      split
      all_goals try simp_all
      all_goals (rename_i heq; exact absurd heq.1.symm (by assumption))
    rw [hstep]
    exact map_flush_cons_ok _ _ _ _ (ih (Or.inl rfl))
  | case8 ics tmp token cs ih =>
    exact fun _ => map_flush_cons_ok _ _ _ _ (ih (Or.inl rfl))
  | case9 ics tmp token cs hne ih =>
    intro _
    have hstep : tokenizeAux ics tmp token ('[' :: cs) =
        (tokenizeAux true (tmpAfterFlush token tmp) none cs).map
          (fun ts => flushToks token tmp ++ (TokenType.CHAR_SELECT_BEGIN, some "") :: ts) := by
      rw [tokenizeAux.eq_def]
      split
      all_goals try simp_all
      all_goals (rename_i heq; exact absurd heq.1.symm (by assumption))
    rw [hstep]
    exact map_flush_cons_ok _ _ _ _ (ih (Or.inl rfl))
  | case10 ics tmp token cs ih =>
    exact fun _ => map_flush_cons_ok _ _ _ _ (ih (Or.inl rfl))
  | case11 ics tmp token cs ih =>
    exact fun _ => map_flush_cons_ok _ _ _ _ (ih (Or.inl rfl))
  | case12 ics tmp token cs ih =>
    exact fun _ => map_flush_cons_ok _ _ _ _ (ih (Or.inl rfl))
  | case13 ics tmp token cs ih =>
    exact fun _ => map_flush_cons_ok _ _ _ _ (ih (Or.inl rfl))
  | case14 tmp token cs ih =>
    exact fun _ => map_flush_cons_ok _ _ _ _ (ih (Or.inl rfl))
  | case15 ics tmp cs hics ih =>
    intro _
    obtain ⟨ts, hts, hall⟩ := ih (Or.inr rfl)
    refine ⟨ts, ?_, hall⟩
    have hstep : tokenizeAux ics tmp (some TokenType.LITERAL) ('-' :: cs) =
        if ics then
          (tokenizeAux ics (tmpAfterFlush (some TokenType.LITERAL) tmp) none cs).map
            (fun ts =>
              flushToks (some TokenType.LITERAL) tmp ++
                (TokenType.CHAR_SELECT_RANGE_DASH, some "") :: ts)
        else tokenizeAux ics (tmp.push '-') (some TokenType.LITERAL) cs := rfl
    rw [hstep, if_neg hics]
    exact hts
  | case16 ics tmp cs hics t hne ih =>
    intro h
    rcases h with h | h
    · simp at h
    · injection h with h2
      exact absurd h2 hne
  | case17 ics tmp cs hics ih =>
    intro _
    obtain ⟨ts, hts, hall⟩ := ih (Or.inr rfl)
    refine ⟨ts, ?_, hall⟩
    have hstep : tokenizeAux ics tmp none ('-' :: cs) =
        if ics then
          (tokenizeAux ics (tmpAfterFlush none tmp) none cs).map
            (fun ts =>
              flushToks none tmp ++
                (TokenType.CHAR_SELECT_RANGE_DASH, some "") :: ts)
        else tokenizeAux ics (tmp.push '-') (some TokenType.LITERAL) cs := rfl
    rw [hstep, if_neg hics]
    exact hts
  | case18 ics tmp c cs h1 h2 h3 h4 h5 h6 h7 h8 h9 h10 h11 h12 h13 ih =>
    intro _
    have hstep : tokenizeAux ics tmp (some TokenType.LITERAL) (c :: cs) =
        tokenizeAux ics (tmp.push c) (some TokenType.LITERAL) cs := by
      clear ih
      rw [tokenizeAux.eq_def]
      split <;> simp_all
    rw [hstep]
    exact ih (Or.inr rfl)
  | case19 ics tmp c cs h1 h2 h3 h4 h5 h6 h7 h8 h9 h10 h11 h12 h13 t hne ih =>
    intro h
    rcases h with h | h
    · simp at h
    · injection h with h2
      exact absurd h2 hne
  | case20 ics tmp c cs h1 h2 h3 h4 h5 h6 h7 h8 h9 h10 h11 h12 h13 ih =>
    intro _
    have hstep : tokenizeAux ics tmp none (c :: cs) =
        tokenizeAux ics (tmp.push c) (some TokenType.LITERAL) cs := by
      clear ih
      rw [tokenizeAux.eq_def]
      split <;> simp_all
    rw [hstep]
    exact ih (Or.inr rfl)

/-- When every token of the list carries a payload, the compilation fold
succeeds (no token kind hits an error arm). -/
theorem compileFold_ok (ts : List Tok) :
    (∀ td ∈ ts, td.2.isSome) → ∀ acc, ∃ s, compileFold acc ts = .ok s := by
  induction ts with
  | nil => exact fun _ acc => ⟨acc, rfl⟩
  | cons td rest ih =>
    intro h acc
    obtain ⟨t, d⟩ := td
    have hd : d.isSome := by simpa using h (t, d) (List.mem_cons_self _ _)
    obtain ⟨dv, rfl⟩ := Option.isSome_iff_exists.mp hd
    have hct : ∃ frag, compileToken t (some dv) = .ok frag := by
      cases t <;> exact ⟨_, rfl⟩
    obtain ⟨frag, hfrag⟩ := hct
    have hstep : compileFold acc ((t, some dv) :: rest) =
        match compileToken t (some dv) with
        | .ok frag => compileFold (acc ++ frag) rest
        | .error e => .error e := rfl
    rw [hstep, hfrag]
    exact ih (fun td' h' => h td' (List.mem_cons_of_mem _ h')) (acc ++ frag)

/-- Claim C10.  For every input string the tokenizer terminates without
raising — its unexpected-character branch is unreachable because every
character is an escape, a literal, or one of the nine special characters —
and consequently `glob_to_regex` also terminates without raising. -/
theorem compilation_pipeline_total (g : String) :
    (∃ ts, tokenize g = .ok ts) ∧ (∃ rs, glob_to_regex g = .ok rs) := by
  obtain ⟨ts, hts, hall⟩ := tokenizeAux_ok false "" none g.toList (Or.inl rfl)
  have hts' : tokenize g = .ok ts := hts
  obtain ⟨ans, hans⟩ := compileFold_ok ts hall ""
  refine ⟨⟨ts, hts'⟩, ⟨"^" ++ ans ++ "$", ?_⟩⟩
  simp only [glob_to_regex, hts', hans]

/-! ## Literal patterns compile to exact-match regexes -/

theorem str_toList_append (a b : String) : (a ++ b).toList = a.toList ++ b.toList := by
  cases a
  cases b
  rfl

theorem str_append_assoc (a b c : String) : a ++ b ++ c = a ++ (b ++ c) := by
  cases a with
  | mk x =>
    cases b with
    | mk y =>
      cases c with
      | mk z =>
        show String.mk (x ++ y ++ z) = String.mk (x ++ (y ++ z))
        rw [List.append_assoc]

theorem str_append_empty (s : String) : s ++ "" = s := by
  cases s with
  | mk x =>
    show String.mk (x ++ []) = String.mk x
    rw [List.append_nil]

theorem str_empty_append (s : String) : "" ++ s = s := rfl

theorem str_push_toList (s : String) (c : Char) :
    (s.push c).toList = s.toList ++ [c] := by
  cases s
  rfl

/-- The glob metacharacters and the escape character: a pattern avoiding
these (so made of literal characters, dots and dashes only) is a "plain
literal pattern with no metacharacters" in the sense of the specification. -/
def globMetaChars : List Char := ['?', '*', '[', ']', '{', ',', '}', '\\']

/-- The token stream of a literal pattern: literal runs between separators.
`tmp?` is `some tmp` when a literal run with buffer `tmp` is pending. -/
def litToks : Option String → List Char → List Tok
  | tmp?, [] =>
    match tmp? with
    | some tmp => [(TokenType.LITERAL, some tmp)]
    | none => []
  | tmp?, c :: cs =>
    if c = '.' then
      (match tmp? with
       | some tmp => [(TokenType.LITERAL, some tmp)]
       | none => []) ++ (TokenType.PATH_SEPARATOR, some "") :: litToks none cs
    else litToks (some ((tmp?.getD "").push c)) cs

set_option maxHeartbeats 1000000 in
/-- On a pattern containing no glob metacharacter and no escape, the
tokenizer succeeds and yields exactly the literal-run/separator stream. -/
theorem tokenizeAux_literal (cs : List Char)
    (hlit : ∀ c ∈ cs, c ∉ globMetaChars) :
    ∀ tmp? : Option String,
      tokenizeAux false (tmp?.getD "") (tmp?.map (fun _ => TokenType.LITERAL)) cs =
        .ok (litToks tmp? cs) := by
  induction cs with
  | nil =>
    intro tmp?
    cases tmp? <;> rfl
  | cons c cs ih =>
    have hlit' : ∀ c' ∈ cs, c' ∉ globMetaChars :=
      fun c' h => hlit c' (List.mem_cons_of_mem _ h)
    have hc : c ∉ globMetaChars := hlit c (List.mem_cons_self _ _)
    intro tmp?
    by_cases hdot : c = '.'
    · subst hdot
      cases tmp? with
      | none =>
        have hrec : tokenizeAux false "" none cs = .ok (litToks none cs) :=
          ih hlit' none
        show (tokenizeAux false (tmpAfterFlush none "") none cs).map
          (fun ts => flushToks none "" ++ (TokenType.PATH_SEPARATOR, some "") :: ts) =
            .ok (litToks none ('.' :: cs))
        rw [show tmpAfterFlush none "" = "" from rfl, hrec]
        simp [litToks, flushToks, Except.map]
      | some tmp =>
        have hrec : tokenizeAux false "" none cs = .ok (litToks none cs) :=
          ih hlit' none
        show (tokenizeAux false (tmpAfterFlush (some TokenType.LITERAL) tmp) none cs).map
          (fun ts => flushToks (some TokenType.LITERAL) tmp ++
            (TokenType.PATH_SEPARATOR, some "") :: ts) = .ok (litToks (some tmp) ('.' :: cs))
        rw [show tmpAfterFlush (some TokenType.LITERAL) tmp = "" from rfl, hrec]
        simp [litToks, flushToks, Except.map]
    · by_cases hdash : c = '-'
      · subst hdash
        cases tmp? with
        | none =>
          have hrec : tokenizeAux false ("".push '-') (some TokenType.LITERAL) cs =
              .ok (litToks (some ("".push '-')) cs) := ih hlit' (some ("".push '-'))
          show tokenizeAux false ("".push '-') (some TokenType.LITERAL) cs =
            .ok (litToks none ('-' :: cs))
          rw [hrec]
          simp [litToks]
        | some tmp =>
          have hrec : tokenizeAux false (tmp.push '-') (some TokenType.LITERAL) cs =
              .ok (litToks (some (tmp.push '-')) cs) := ih hlit' (some (tmp.push '-'))
          show tokenizeAux false (tmp.push '-') (some TokenType.LITERAL) cs =
            .ok (litToks (some tmp) ('-' :: cs))
          rw [hrec]
          simp [litToks]
      · have h1 : c ≠ '?' := fun h => hc (by simp [globMetaChars, h])
        have h2 : c ≠ '*' := fun h => hc (by simp [globMetaChars, h])
        have h3 : c ≠ '[' := fun h => hc (by simp [globMetaChars, h])
        have h4 : c ≠ ']' := fun h => hc (by simp [globMetaChars, h])
        have h5 : c ≠ '{' := fun h => hc (by simp [globMetaChars, h])
        have h6 : c ≠ ',' := fun h => hc (by simp [globMetaChars, h])
        have h7 : c ≠ '}' := fun h => hc (by simp [globMetaChars, h])
        have h8 : c ≠ '\\' := fun h => hc (by simp [globMetaChars, h])
        cases tmp? with
        | none =>
          have hrec : tokenizeAux false ("".push c) (some TokenType.LITERAL) cs =
              .ok (litToks (some ("".push c)) cs) := ih hlit' (some ("".push c))
          have hstep : tokenizeAux false "" none (c :: cs) =
              tokenizeAux false ("".push c) (some TokenType.LITERAL) cs := by
            rw [tokenizeAux.eq_def]
            split <;> simp_all
          show tokenizeAux false "" none (c :: cs) = .ok (litToks none (c :: cs))
          rw [hstep, hrec]
          simp [litToks, hdot]
        | some tmp =>
          have hrec : tokenizeAux false (tmp.push c) (some TokenType.LITERAL) cs =
              .ok (litToks (some (tmp.push c)) cs) := ih hlit' (some (tmp.push c))
          have hstep : tokenizeAux false tmp (some TokenType.LITERAL) (c :: cs) =
              tokenizeAux false (tmp.push c) (some TokenType.LITERAL) cs := by
            rw [tokenizeAux.eq_def]
            split <;> simp_all
          show tokenizeAux false tmp (some TokenType.LITERAL) (c :: cs) =
            .ok (litToks (some tmp) (c :: cs))
          rw [hstep, hrec]
          simp [litToks, hdot]

/-- `tokenize` on a literal pattern. -/
theorem tokenize_literal (p : String)
    (hlit : ∀ c ∈ p.toList, c ∉ globMetaChars) :
    tokenize p = .ok (litToks none p.toList) :=
  tokenizeAux_literal p.toList hlit none

theorem str_ext (a b : String) (h : a.toList = b.toList) : a = b := by
  cases a
  cases b
  exact congrArg String.mk h

theorem escRender_toList (cs : List Char) :
    (escRender cs).toList = escRenderL cs := by
  induction cs with
  | nil => rfl
  | cons c cs ih =>
    show (escChar c ++ escRender cs).toList = escCharL c ++ escRenderL cs
    rw [str_toList_append, ih]
    rfl

theorem escRenderL_append (l1 l2 : List Char) :
    escRenderL (l1 ++ l2) = escRenderL l1 ++ escRenderL l2 := by
  induction l1 with
  | nil => rfl
  | cons c l1 ih =>
    show escCharL c ++ escRenderL (l1 ++ l2) = (escCharL c ++ escRenderL l1) ++ _
    rw [ih, List.append_assoc]

theorem str_data_append (a b : String) : (a ++ b).data = a.data ++ b.data := by
  cases a
  cases b
  rfl

theorem escRender_data (cs : List Char) : (escRender cs).data = escRenderL cs := by
  induction cs with
  | nil => rfl
  | cons c cs ih =>
    show (escChar c ++ escRender cs).data = escCharL c ++ escRenderL cs
    rw [str_data_append, ih]
    rfl

theorem str_push_data (s : String) (c : Char) : (s.push c).data = s.data ++ [c] := by
  cases s
  rfl

/-- The literal text pending in the scanner state, compiled. -/
def flushStr : Option String → String
  | some tmp => reEscape tmp
  | none => ""

theorem compileFold_litToks (cs : List Char) :
    ∀ (tmp? : Option String) (acc : String),
      compileFold acc (litToks tmp? cs) =
        .ok (acc ++ flushStr tmp? ++ escRender cs) := by
  induction cs with
  | nil =>
    intro tmp? acc
    cases tmp? with
    | none =>
      show Except.ok acc = _
      refine congrArg Except.ok (str_ext _ _ ?_)
      simp [str_toList_append, flushStr, escRender]
    | some tmp =>
      show compileFold (acc ++ reEscape tmp) [] = _
      refine congrArg Except.ok (str_ext _ _ ?_)
      simp [str_toList_append, flushStr, escRender]
  | cons c cs ih =>
    intro tmp? acc
    by_cases hdot : c = '.'
    · subst hdot
      cases tmp? with
      | none =>
        have hl : litToks none ('.' :: cs) =
            (TokenType.PATH_SEPARATOR, some "") :: litToks none cs := by
          simp [litToks]
        rw [hl]
        have hstep : compileFold acc
            ((TokenType.PATH_SEPARATOR, some "") :: litToks none cs) =
            compileFold (acc ++ reEscape ".") (litToks none cs) := rfl
        rw [hstep, ih none (acc ++ reEscape ".")]
        refine congrArg Except.ok (str_ext _ _ ?_)
        simp [str_toList_append, str_data_append, escRender_data, flushStr,
          escRenderL, escRenderL_append, escCharL, reEscape]
      | some tmp =>
        have hl : litToks (some tmp) ('.' :: cs) =
            (TokenType.LITERAL, some tmp) ::
              (TokenType.PATH_SEPARATOR, some "") :: litToks none cs := by
          simp [litToks]
        rw [hl]
        have hstep : compileFold acc
            ((TokenType.LITERAL, some tmp) ::
              (TokenType.PATH_SEPARATOR, some "") :: litToks none cs) =
            compileFold (acc ++ reEscape tmp ++ reEscape ".") (litToks none cs) := rfl
        rw [hstep, ih none (acc ++ reEscape tmp ++ reEscape ".")]
        refine congrArg Except.ok (str_ext _ _ ?_)
        simp [str_toList_append, str_data_append, escRender_data, flushStr,
          escRenderL, escRenderL_append, escCharL, reEscape]
    · have hl : litToks tmp? (c :: cs) =
          litToks (some ((tmp?.getD "").push c)) cs := by
        rw [show litToks tmp? (c :: cs) =
          if c = '.' then
            (match tmp? with
             | some tmp => [(TokenType.LITERAL, some tmp)]
             | none => []) ++ (TokenType.PATH_SEPARATOR, some "") :: litToks none cs
          else litToks (some ((tmp?.getD "").push c)) cs from rfl, if_neg hdot]
      rw [hl, ih (some ((tmp?.getD "").push c)) acc]
      refine congrArg Except.ok (str_ext _ _ ?_)
      cases tmp? with
      | none =>
        simp [str_toList_append, str_data_append, escRender_data, flushStr,
          reEscape, str_push_toList, str_push_data, escRenderL_append,
          escRenderL, escCharL]
      | some tmp =>
        simp [str_toList_append, str_data_append, escRender_data, flushStr,
          reEscape, str_push_toList, str_push_data, escRenderL_append,
          escRenderL, escCharL]

set_option maxHeartbeats 1000000 in
theorem rlex_escRender (cs : List Char) (rest : List Char) :
    rlexAux none (escRenderL cs ++ rest) =
      (rlexAux none rest).map
        (fun ts => (cs.map (fun c => RTok.atom (.char c))) ++ ts) := by
  induction cs with
  | nil =>
    show rlexAux none rest = _
    cases rlexAux none rest <;> simp
  | cons c cs ih =>
    by_cases hsp : reSpecial c = true
    · have hl : escRenderL (c :: cs) ++ rest = '\\' :: c :: (escRenderL cs ++ rest) := by
        simp [escRenderL, escCharL, hsp]
      rw [hl]
      show (rlexAux none (escRenderL cs ++ rest)).map
        (fun ts => RTok.atom (.char c) :: ts) = _
      rw [ih]
      cases rlexAux none rest <;> simp
    · have hl : escRenderL (c :: cs) ++ rest = c :: (escRenderL cs ++ rest) := by
        simp [escRenderL, escCharL, hsp]
      rw [hl]
      have hmem : c ∉ ['(', ')', '[', ']', '{', '}', '?', '*', '+', '-', '|',
          '^', '$', '\\', '.', '&', '~', '#', ' ', '\t', '\n', '\r',
          '\x0b', '\x0c'] := by
        simpa [reSpecial] using hsp
      have h1 : c ≠ '(' := fun h => hmem (by simp [h])
      have h2 : c ≠ ')' := fun h => hmem (by simp [h])
      have h3 : c ≠ '|' := fun h => hmem (by simp [h])
      have h4 : c ≠ '*' := fun h => hmem (by simp [h])
      have h5 : c ≠ '\\' := fun h => hmem (by simp [h])
      have h6 : c ≠ '.' := fun h => hmem (by simp [h])
      have h7 : c ≠ '[' := fun h => hmem (by simp [h])
      have hstep : rlexAux none (c :: (escRenderL cs ++ rest)) =
          (rlexAux none (escRenderL cs ++ rest)).map
            (fun ts => RTok.atom (.char c) :: ts) := by
        clear ih
        rw [rlexAux.eq_def]
        split <;> simp_all
      rw [hstep, ih]
      cases rlexAux none rest <;> simp

theorem parseToks_atoms (rs : List Regex) :
    ∀ stack alts cat, parseToks (rs.map RTok.atom) stack alts cat =
      parseToks [] stack alts (rs.reverse ++ cat) := by
  induction rs with
  | nil => intro stack alts cat; simp
  | cons r rs ih =>
    intro stack alts cat
    rw [show parseToks ((r :: rs).map RTok.atom) stack alts cat =
      parseToks (rs.map RTok.atom) stack alts (r :: cat) from rfl, ih]
    congr 1
    simp

theorem parseRegexChars_escRender (cs : List Char) :
    parseRegexChars (escRenderL cs) = some (catChainOf (cs.map Regex.char)) := by
  unfold parseRegexChars
  have h1 : rlexAux none (escRenderL cs) =
      some ((cs.map Regex.char).map RTok.atom) := by
    have h := rlex_escRender cs []
    rw [List.append_nil] at h
    rw [show rlexAux none [] = some [] from rfl] at h
    simpa [List.map_map] using h
  rw [h1]
  show parseToks ((cs.map Regex.char).map RTok.atom) [] [] [] = _
  rw [parseToks_atoms]
  show some (mkAlt [] (mkCat ((cs.map Regex.char).reverse ++ []))) = _
  simp [mkAlt, mkCat, altChainOf]

/-- Claim C7.  Every compiled regex is anchored (`^` in front, `$` at the
end), and a pattern consisting only of literal characters and dots (no glob
metacharacter, no escape) compiles to a regex that matches exactly the
pattern itself and no other string. -/
theorem anchored_and_literal_exact :
    (∀ g rs : String, glob_to_regex g = .ok rs →
      ∃ inner, rs = "^" ++ inner ++ "$") ∧
    (∀ p : String, (∀ c ∈ p.toList, c ∉ globMetaChars) →
      ∀ s : String, globRegexAccepts p s = true ↔ s = p) := by
  constructor
  · intro g rs h
    unfold glob_to_regex at h
    split at h
    · split at h
      · injection h with h2
        exact ⟨_, h2.symm⟩
      · cases h
    · cases h
  · intro p hp s
    have htok : tokenize p = .ok (litToks none p.toList) := tokenize_literal p hp
    have hcf : compileFold "" (litToks none p.toList) =
        .ok (escRender p.toList) := by
      have h := compileFold_litToks p.toList none ""
      rw [h]
      refine congrArg Except.ok (str_ext _ _ ?_)
      simp [str_toList_append, flushStr]
    have hreg : glob_to_regex p = .ok ("^" ++ escRender p.toList ++ "$") := by
      simp only [glob_to_regex, htok, hcf]
    have hstrip : stripAnchors (("^" ++ escRender p.toList ++ "$").toList) =
        some (escRenderL p.toList) := by
      have hlist : ("^" ++ escRender p.toList ++ "$").toList =
          '^' :: (escRenderL p.toList ++ ['$']) := by
        rw [str_toList_append, str_toList_append, escRender_toList]
        rfl
      rw [hlist]
      show (if (escRenderL p.toList ++ ['$']).getLast? = some '$' then
        some (escRenderL p.toList ++ ['$']).dropLast else none) = _
      rw [List.getLast?_concat, if_pos rfl, List.dropLast_concat]
    rw [globRegexAccepts_eq p _ _ _ hreg hstrip (parseRegexChars_escRender p.toList) s]
    rw [catChain_chars_rmatch_iff]
    constructor
    · intro h
      exact str_ext s p h
    · rintro rfl
      rfl

/-- Witness for Claim C7 at the literal pattern `a.b`. -/
theorem anchored_and_literal_exact_witness :
    (∃ inner, ("^a\\.b$" : String) = "^" ++ inner ++ "$") ∧
    (globRegexAccepts "a.b" "a.b" = true ↔ ("a.b" : String) = "a.b") :=
  ⟨anchored_and_literal_exact.1 "a.b" "^a\\.b$" (by decide),
   anchored_and_literal_exact.2 "a.b" (by decide) "a.b"⟩

end GlobUtils
